import Mathlib

set_option maxRecDepth 8000

/-!
Shallow embedding of the PDF text-extraction pipeline of this repository
(`PDFTextExtractor` in `src/bpp.py`, and the direct-extraction / OCR-fallback
driver in `src/app.py`).

Text is modelled as `List Char`.  The Python regular expressions used by the
source are compiled by hand into executable character-list functions; every
such function is annotated with the regex it implements.  `\d`, `[a-z]` and
`str.lower` are modelled at ASCII level, and Python's `str.strip` whitespace
class is modelled by the Latin-1 whitespace characters (the classifier's
patterns and the pipeline's delimiters only involve ASCII text).
-/

/-- Whitespace class used by Python's `str.strip` and the regex class `\s`
(restricted to Latin-1 code points). -/
def isPySpace (c : Char) : Bool :=
  c = ' ' || c = '\t' || c = '\n' || c = '\r' || c = '\x0b' || c = '\x0c' ||
  c = '\x1c' || c = '\x1d' || c = '\x1e' || c = '\x1f' || c = '\x85' || c = '\xa0'

/-- Horizontal whitespace, the regex class `[ \t]`. -/
def isHT (c : Char) : Bool :=
  c = ' ' || c = '\t'

/-- Python `str.strip()`: drop whitespace from both ends. -/
def pyStrip (l : List Char) : List Char :=
  ((l.dropWhile isPySpace).reverse.dropWhile isPySpace).reverse

/-- Python `str.split('\n')`: `"" ↦ [""]`, `"a\nb" ↦ ["a","b"]`, keeps empty parts. -/
def splitNl : List Char → List (List Char)
  | [] => [[]]
  | c :: t =>
    if c = '\n' then [] :: splitNl t
    else
      match splitNl t with
      | r :: rs => (c :: r) :: rs
      | [] => [[c]]

/-- Python `sep.join(parts)`. -/
def joinWith (sep : List Char) : List (List Char) → List Char
  | [] => []
  | [l] => l
  | l :: ls => l ++ sep ++ joinWith sep ls

/-- Python `'\n'.join(parts)`. -/
def joinNl (ls : List (List Char)) : List Char :=
  joinWith ['\n'] ls

/-- All characters are whitespace (`str.strip()` gives `""`). -/
def allWs (l : List Char) : Bool :=
  l.all isPySpace

/-- Scan the maximal whitespace prefix of a string, returning the number of
newlines inside it together with the suffix that follows the last of those
newlines (the whole input when the prefix holds no newline).  This is the
backtracking behaviour of a trailing greedy `\s*\n`. -/
def wsNlScan : List Char → Nat × List Char
  | [] => (0, [])
  | c :: t =>
    if isPySpace c then
      let p := wsNlScan t
      if c = '\n' then (p.1 + 1, if p.1 = 0 then t else p.2)
      else (p.1, if p.1 = 0 then c :: t else p.2)
    else (0, c :: t)

/-- One maximal whitespace run of the input, rewritten the way one application
of the regex `\n\s*\n\s*\n ↦ \n\n` rewrites it: a match exists inside a
whitespace run exactly when the run holds at least three newlines, the match
starts at the first newline of the run and (greedily) ends at its last
newline, so the run collapses to its newline-free head, `"\n\n"`, and its
newline-free tail.  Runs with at most two newlines are left unchanged. -/
def transformRun (r : List Char) : List Char :=
  if 3 ≤ r.count '\n' then
    (r.takeWhile (fun c => !(c = '\n'))) ++
      '\n' :: '\n' :: (r.reverse.takeWhile (fun c => !(c = '\n'))).reverse
  else r

/-- Worker for `collapseTriple`: the first argument accumulates (reversed) the
current maximal whitespace run, which is flushed through `transformRun` when a
non-whitespace character or the end of the input is reached. -/
def ctAux : List Char → List Char → List Char
  | pend, [] => transformRun pend.reverse
  | pend, c :: t =>
    if isPySpace c then ctAux (c :: pend) t
    else transformRun pend.reverse ++ c :: ctAux [] t

/-- Python `re.sub(r'\n\s*\n\s*\n', '\n\n', text)` (first normalisation step of
`clean_text_block`, src/bpp.py line 100).  Since `\s*` only matches whitespace,
every match lies inside a single maximal whitespace run, and `re.sub` rewrites
each run independently as described at `transformRun`. -/
def collapseTriple (text : List Char) : List Char :=
  ctAux [] text

/-- Worker for `collapseHT`: the flag says whether the previous character was
horizontal whitespace (in which case further `[ \t]` characters are dropped). -/
def htAux : Bool → List Char → List Char
  | _, [] => []
  | prev, c :: t =>
    if isHT c then
      if prev then htAux true t else ' ' :: htAux true t
    else c :: htAux false t

/-- Python `re.sub(r'[ \t]+', ' ', text)` (second normalisation step of
`clean_text_block`, src/bpp.py line 101). -/
def collapseHT (text : List Char) : List Char :=
  htAux false text

/-- ASCII `str.lower`. -/
def lowerList (l : List Char) : List Char :=
  l.map Char.toLower

/-- Python `re.match(r'^\d+$', line)`: the line is one or more digits. -/
def isPureNum (l : List Char) : Bool :=
  decide (l ≠ []) && l.all Char.isDigit

/-- Tail test `\s+\d+`: at least one whitespace character followed by at least
one digit (used after a keyword; greedy/backtracking agree because `\s` and
`\d` are disjoint). -/
def wsThenDigit : List Char → Bool
  | [] => false
  | c :: t =>
    isPySpace c &&
      (match t.dropWhile isPySpace with
       | d :: _ => d.isDigit
       | [] => false)

/-- Python `re.match(r'^page\s+\d+', line.lower())` applied to the already
lowercased line. -/
def startsPageNum (m : List Char) : Bool :=
  decide (m.take 4 = ('p' :: 'a' :: 'g' :: 'e' :: [])) && wsThenDigit (m.drop 4)

/-- The line-keeping predicate of `clean_text_block` (src/bpp.py lines 111-117):
a (stripped) line is dropped when it is shorter than 3 characters, purely
numeric, starts with `page <n>`, or equals `header`/`footer` case-insensitively. -/
def keepLine (l : List Char) : Bool :=
  !(decide (l.length < 3) || isPureNum l || startsPageNum (lowerList l) ||
    decide (lowerList l = ('h' :: 'e' :: 'a' :: 'd' :: 'e' :: 'r' :: [])) ||
    decide (lowerList l = ('f' :: 'o' :: 'o' :: 't' :: 'e' :: 'r' :: [])))

/-- `PDFTextExtractor.clean_text_block` (src/bpp.py lines 94-119): empty input
short-circuits to `""`; otherwise collapse `\n\s*\n\s*\n` runs, collapse
`[ \t]+` runs, then keep (stripped) non-boilerplate lines, re-joined with `\n`. -/
def clean_text_block (text : List Char) : List Char :=
  if text = [] then []
  else joinNl (((splitNl (collapseHT (collapseTriple text))).map pyStrip).filter keepLine)

/-- Regex `(?i)^\s*<kw>\s+\d+.*$` via `re.search` on a line (the keyword is
given lowercased; `^` anchors at the string start since `re.MULTILINE` is off,
and `.*$` is vacuous). -/
def kwNumPat (kw : List Char) (l : List Char) : Bool :=
  let r := l.dropWhile isPySpace
  decide (lowerList (r.take kw.length) = kw) && wsThenDigit (r.drop kw.length)

/-- Regex `(?i)^\s*appendix\s+[a-z\d]+.*$` via `re.search` on a line. -/
def appendixPat (l : List Char) : Bool :=
  let kw := ('a' :: 'p' :: 'p' :: 'e' :: 'n' :: 'd' :: 'i' :: 'x' :: [])
  let r := l.dropWhile isPySpace
  decide (lowerList (r.take 8) = kw) &&
    (match r.drop 8 with
     | c :: t =>
       isPySpace c &&
         (match t.dropWhile isPySpace with
          | d :: _ => d.isAlpha || d.isDigit
          | [] => false)
     | [] => false)

/-- Regex `(?i)^\s*<word>\s*$` via `re.search`: the line consists solely of the
given (lowercased) word, with optional surrounding whitespace. -/
def soloPat (w : List Char) (l : List Char) : Bool :=
  let r := l.dropWhile isPySpace
  decide (lowerList (r.take w.length) = w) &&
    decide ((r.drop w.length).dropWhile isPySpace = [])

/-- Regex `(?i)^\s*references?\s*$` via `re.search`: `reference` with an
optional trailing `s` (this is the only pattern in the list with an optional
plural). -/
def referencesPat (l : List Char) : Bool :=
  let w := ('r' :: 'e' :: 'f' :: 'e' :: 'r' :: 'e' :: 'n' :: 'c' :: 'e' :: [])
  let r := l.dropWhile isPySpace
  decide (lowerList (r.take 9) = w) &&
    (decide ((r.drop 9).dropWhile isPySpace = []) ||
     (match r.drop 9 with
      | c :: t => decide (c.toLower = 's') && decide (t.dropWhile isPySpace = [])
      | [] => false))

/-- `PDFTextExtractor.supplementary_patterns` (src/bpp.py lines 47-57), as a
single line predicate: the disjunction of the nine patterns. -/
def matchesSuppPat (l : List Char) : Bool :=
  kwNumPat (('t' :: 'a' :: 'b' :: 'l' :: 'e' :: [])) l ||
  kwNumPat (('f' :: 'i' :: 'g' :: 'u' :: 'r' :: 'e' :: [])) l ||
  kwNumPat (('c' :: 'h' :: 'a' :: 'r' :: 't' :: [])) l ||
  kwNumPat (('d' :: 'i' :: 'a' :: 'g' :: 'r' :: 'a' :: 'm' :: [])) l ||
  appendixPat l ||
  referencesPat l ||
  soloPat (('b' :: 'i' :: 'b' :: 'l' :: 'i' :: 'o' :: 'g' :: 'r' :: 'a' :: 'p' :: 'h' :: 'y' :: [])) l ||
  soloPat (('i' :: 'n' :: 'd' :: 'e' :: 'x' :: [])) l ||
  soloPat (('g' :: 'l' :: 'o' :: 's' :: 's' :: 'a' :: 'r' :: 'y' :: [])) l

/-- Regex `\d+[\s\t]+\d+` via `re.search`: somewhere in the line, a digit
followed by at least one whitespace character followed by a digit. -/
def hasDWD : List Char → Bool
  | [] => false
  | [_] => false
  | c1 :: c2 :: t =>
    (c1.isDigit && isPySpace c2 &&
      (match t.dropWhile isPySpace with
       | d :: _ => d.isDigit
       | [] => false)) ||
    hasDWD (c2 :: t)

/-- The tabular-line test of `is_supplementary_content` (src/bpp.py line 85):
`re.search(r'\d+[\s\t]+\d+', line) or line.count('\t') > 2`. -/
def isTabularLine (l : List Char) : Bool :=
  hasDWD l || decide (2 < (l.filter (fun c => c = '\t')).length)

/-- `PDFTextExtractor.is_supplementary_content` (src/bpp.py lines 71-92):
scan the first three lines of the stripped block for a supplementary pattern
(each line itself stripped first); otherwise count tabular-looking lines and
report a block of more than 3 lines whose tabular ratio exceeds 0.3.  The
float comparison `numeric_lines / len(text_lines) > 0.3` is modelled exactly
as `3 * len < 10 * numeric` (for block sizes far below 2^50 lines the double
rounding cannot flip this comparison, as 0.3 is itself below the exact value
by less than one part in 2^52). -/
def is_supplementary_content (text_block : List Char) : Bool :=
  let text_lines := splitNl (pyStrip text_block)
  if (text_lines.take 3).any (fun line => matchesSuppPat (pyStrip line)) then true
  else
    decide (3 < text_lines.length) &&
      decide (3 * text_lines.length < 10 * ((text_lines.filter isTabularLine).length))

/-- The literal sequence `p` starts the list `l`. -/
def startsSeq (p l : List Char) : Bool :=
  decide (l.take p.length = p)

/-- Try to match the page-marker delimiter regex
`\n\s*---\s*Page\s+\d+\s*---\s*\n` (src/bpp.py line 127) at the head of the
input, returning the suffix after the match.  Every `\s*`/`\s+`/`\d+` here is
followed by a literal from a disjoint character class, so the greedy
quantifiers simply consume maximal runs; the final `\s*\n` consumes up to the
last newline of the trailing whitespace run (see `wsNlScan`). -/
def tryMarker : List Char → Option (List Char)
  | '\n' :: t =>
    let t1 := t.dropWhile isPySpace
    if startsSeq ('-' :: '-' :: '-' :: []) t1 then
      let t2 := (t1.drop 3).dropWhile isPySpace
      if startsSeq ('P' :: 'a' :: 'g' :: 'e' :: []) t2 then
        match t2.drop 4 with
        | c :: t3 =>
          if isPySpace c then
            match t3.dropWhile isPySpace with
            | d :: _ =>
              if d.isDigit then
                let t4 := ((t3.dropWhile isPySpace).dropWhile Char.isDigit).dropWhile isPySpace
                if startsSeq ('-' :: '-' :: '-' :: []) t4 then
                  let p := wsNlScan (t4.drop 3)
                  if 1 ≤ p.1 then some p.2 else none
                else none
              else none
            | [] => none
          else none
        | [] => none
      else none
    else none
  | _ => none

/-- Worker for `pySplitMarker`: scan left to right, starting a new segment
after each delimiter match; `acc` is the current segment, reversed.  The fuel
only bounds the recursion (each step consumes at least one character, so
`fuel = length` always suffices); it never changes the result. -/
def splitGo : Nat → List Char → List Char → List (List Char)
  | _, acc, [] => [acc.reverse]
  | 0, acc, l => [acc.reverse ++ l]
  | fuel + 1, acc, c :: t =>
    match tryMarker (c :: t) with
    | some rest => acc.reverse :: splitGo fuel [] rest
    | none => splitGo fuel (c :: acc) t

/-- Python `re.split(r'\n\s*---\s*Page\s+\d+\s*---\s*\n', text)`
(src/bpp.py line 127). -/
def pySplitMarker (text : List Char) : List (List Char) :=
  splitGo text.length [] text

/-- Python `re.search(r'Page\s+(\d+)', text)` as a Boolean: somewhere in the
text, the literal `Page` (case-sensitive) followed by whitespace and a digit
(src/bpp.py line 138). -/
def hasPageRef : List Char → Bool
  | [] => false
  | c :: t =>
    (decide (c = 'P') && startsSeq ('a' :: 'g' :: 'e' :: []) t && wsThenDigit (t.drop 3)) ||
    hasPageRef t

/-- Decimal digits of a number, as characters. -/
def natChars (n : Nat) : List Char :=
  (Nat.repr n).data

/-- The page marker `f"\n--- Page {i} ---\n"` that `separate_content` prepends
to the block at index `i > 0` (src/bpp.py line 140). -/
def pageMarker (i : Nat) : List Char :=
  ('\n' :: '-' :: '-' :: '-' :: ' ' :: 'P' :: 'a' :: 'g' :: 'e' :: ' ' :: []) ++
    natChars i ++ (' ' :: '-' :: '-' :: '-' :: '\n' :: [])

/-- The cleaned form of the block at index `i`: the page marker is prepended
when `i > 0` and the whole input text contains a `Page <n>` reference
(src/bpp.py lines 136-142). -/
def processBlock (hasRef : Bool) (i : Nat) (b : List Char) : List Char :=
  clean_text_block (if 0 < i && hasRef then pageMarker i ++ b else b)

/-- The classification loop of `separate_content` (src/bpp.py lines 132-147):
blocks whose raw content strips to nothing are skipped; every other block is
cleaned (with the index-based marker prepended) and appended to the
supplementary list when `is_supplementary_content` holds, to the main list
otherwise.  `i` is the index of the first block of `bs` in the enumeration. -/
def sepGo : Nat → Bool → List (List Char) → List (List Char) × List (List Char)
  | _, _, [] => ([], [])
  | i, hasRef, b :: bs =>
    let p := sepGo (i + 1) hasRef bs
    if pyStrip b = [] then p
    else
      let cb := processBlock hasRef i b
      if is_supplementary_content cb then (p.1, cb :: p.2)
      else (cb :: p.1, p.2)

/-- The cleaned non-whitespace blocks, in order (reference list used to state
partition and order-preservation properties of `sepGo`). -/
def procGo : Nat → Bool → List (List Char) → List (List Char)
  | _, _, [] => []
  | i, hasRef, b :: bs =>
    if pyStrip b = [] then procGo (i + 1) hasRef bs
    else processBlock hasRef i b :: procGo (i + 1) hasRef bs

/-- The blank-line separator `'\n\n'` used by `'\n\n'.join(...)`. -/
def nnSep : List Char :=
  ('\n' :: '\n' :: [])

/-- `PDFTextExtractor.separate_content` (src/bpp.py lines 121-152): empty or
all-whitespace input yields `("", "")`; otherwise the text is split at page
markers, the blocks are classified, and each of the two groups is joined with
blank lines and stripped. -/
def separate_content (text : List Char) : List Char × List Char :=
  if pyStrip text = [] then ([], [])
  else
    let p := sepGo 0 (hasPageRef text) (pySplitMarker text)
    (pyStrip (joinWith nnSep p.1), pyStrip (joinWith nnSep p.2))

/-- The banner inserted before supplementary content
(`f"\n\n{'='*60}\nSUPPLEMENTARY CONTENT\n{'='*60}\n\n"`, src/bpp.py line 186). -/
def bannerChars : List Char :=
  ('\n' :: '\n' :: []) ++ List.replicate 60 '=' ++ ('\n' :: []) ++
    ("SUPPLEMENTARY CONTENT").data ++ ('\n' :: []) ++ List.replicate 60 '=' ++
    ('\n' :: '\n' :: [])

/-- The final assembly of `extract_text_from_pdf` (src/bpp.py lines 183-187):
main content, then — only when the supplementary string is non-empty — the
banner and the supplementary content. -/
def finalText (text : List Char) : List Char :=
  let p := separate_content text
  if p.2 = [] then p.1 else p.1 ++ bannerChars ++ p.2

/-- The tagged page text `f"\n--- Page {n} ---\n" + page_text` accumulated by
both extractors (src/app.py lines 62-63, src/bpp.py lines 167-168). -/
def tagPage (n : Nat) (txt : List Char) : List Char :=
  ('\n' :: '-' :: '-' :: '-' :: ' ' :: 'P' :: 'a' :: 'g' :: 'e' :: ' ' :: []) ++
    natChars n ++ (' ' :: '-' :: '-' :: '-' :: '\n' :: []) ++ txt

/-- A page of the parsed document, as seen by the extraction loops: `some t`
when `page.extract_text()` returns `t`, `none` when it raises. -/
abbrev PageResult := Option (List Char)

/-- The direct-extraction loop of `src/app.py` (lines 59-63), pages numbered
from `n`.  There is no per-page handler there: an exception on any page
propagates to the function-level handler, which discards everything and
returns `None`.  A page whose text strips to nothing contributes nothing. -/
def appDirectGo : Nat → List PageResult → Option (List Char)
  | _, [] => some []
  | _, none :: _ => none
  | n, some p :: rest =>
    match appDirectGo (n + 1) rest with
    | none => none
    | some acc => some ((if pyStrip p = [] then [] else tagPage n p) ++ acc)

/-- `PDFTextExtractor.extract_text_from_pdf` of `src/app.py` (lines 50-75):
the accumulated tagged text when it strips to something non-empty, `None`
otherwise (including the exception path). -/
def appExtract (pages : List PageResult) : Option (List Char) :=
  match appDirectGo 1 pages with
  | none => none
  | some raw => if pyStrip raw = [] then none else some raw

/-- The fallback decision of `PDFTextExtractor.process` in `src/app.py`
(lines 141-147): `ocr_pdf_to_text` runs exactly when direct extraction
returned nothing usable (`if not text:`). -/
def ocrInvoked (pages : List PageResult) : Bool :=
  (appExtract pages).isNone

/-- The direct-extraction loop of `src/bpp.py` (lines 163-171), pages numbered
from `n`: here each page has its own handler, so a raising page only emits a
warning naming its page number (collected in the second component) and
contributes no text. -/
def bppDirectGo : Nat → List PageResult → List Char × List Nat
  | _, [] => ([], [])
  | n, none :: rest =>
    let p := bppDirectGo (n + 1) rest
    (p.1, n :: p.2)
  | n, some t :: rest =>
    let p := bppDirectGo (n + 1) rest
    ((if pyStrip t = [] then [] else tagPage n t) ++ p.1, p.2)

/-- A line consisting solely of the given word, optionally pluralized with a
trailing `s`, case-insensitively — the reading of the spec claim's "each
optionally pluralized" (claim C1). -/
def soloPatOptS (w : List Char) (l : List Char) : Bool :=
  soloPat w l || soloPat (w ++ ('s' :: [])) l

/-- Follows the spec claim's words (claim C1): a line matching `table/figure/
chart/diagram <number>`, `appendix <alnum>`, or consisting solely of
`references`, `bibliography`, `index` or `glossary`, **each** optionally
pluralized (optional trailing `s`), case-insensitively. -/
def claimIndicatorLine (l : List Char) : Bool :=
  kwNumPat (('t' :: 'a' :: 'b' :: 'l' :: 'e' :: [])) l ||
  kwNumPat (('f' :: 'i' :: 'g' :: 'u' :: 'r' :: 'e' :: [])) l ||
  kwNumPat (('c' :: 'h' :: 'a' :: 'r' :: 't' :: [])) l ||
  kwNumPat (('d' :: 'i' :: 'a' :: 'g' :: 'r' :: 'a' :: 'm' :: [])) l ||
  appendixPat l ||
  soloPatOptS (('r' :: 'e' :: 'f' :: 'e' :: 'r' :: 'e' :: 'n' :: 'c' :: 'e' :: 's' :: [])) l ||
  soloPatOptS (('b' :: 'i' :: 'b' :: 'l' :: 'i' :: 'o' :: 'g' :: 'r' :: 'a' :: 'p' :: 'h' :: 'y' :: [])) l ||
  soloPatOptS (('i' :: 'n' :: 'd' :: 'e' :: 'x' :: [])) l ||
  soloPatOptS (('g' :: 'l' :: 'o' :: 's' :: 's' :: 'a' :: 'r' :: 'y' :: [])) l

/-- The first three non-empty lines of a block (spec wording of claim C1). -/
def firstThreeNonEmpty (b : List Char) : List (List Char) :=
  (((splitNl (pyStrip b)).map pyStrip).filter (fun l => decide (l ≠ []))).take 3

/-- The classification decision `separate_content` makes for the block at
index `i` of the split of `text`: `none` when there is no such block or it is
all whitespace, otherwise `some` of its supplementary flag. -/
def blockClassAt (text : List Char) (i : Nat) : Option Bool :=
  match (pySplitMarker text).get? i with
  | none => none
  | some b =>
    if pyStrip b = [] then none
    else some (is_supplementary_content (processBlock (hasPageRef text) i b))

/-- No newline is adjacent to another whitespace character: every maximal
whitespace run then holds at most one newline, so `collapseTriple` cannot fire. -/
def RelNl (a b : Char) : Prop :=
  ¬(isPySpace a = true ∧ isPySpace b = true ∧ (a = '\n' ∨ b = '\n'))

/-- No two adjacent horizontal-whitespace characters. -/
def RelHT (a b : Char) : Prop :=
  ¬(isHT a = true ∧ isHT b = true)

/-- The list of lines produced by the non-trivial branch of
`clean_text_block`. -/
def cleanLines (t : List Char) : List (List Char) :=
  ((splitNl (collapseHT (collapseTriple t))).map pyStrip).filter keepLine

/-- A page outcome that contributes nothing to the direct-extraction
aggregate: extracted text that is entirely whitespace (errors are counted
separately). -/
def pageAllWs : PageResult → Bool
  | none => true
  | some t => allWs t

/-! ### Basic facts about `dropWhile` and `pyStrip` -/

theorem dropWhile_head_false {p : Char → Bool} :
    ∀ (l : List Char) {c : Char} {r : List Char}, l.dropWhile p = c :: r → p c = false := by
  intro l
  induction l with
  | nil => intro c r h; simp [List.dropWhile] at h
  | cons a t ih =>
    intro c r h
    rw [List.dropWhile_cons] at h
    by_cases hp : p a
    · rw [if_pos hp] at h
      exact ih h
    · rw [if_neg hp] at h
      cases h
      simpa using hp

theorem dropWhile_eq_self {p : Char → Bool} :
    ∀ {l : List Char}, (∀ c r, l = c :: r → p c = false) → l.dropWhile p = l := by
  intro l h
  cases l with
  | nil => rfl
  | cons a t => rw [List.dropWhile_cons, h a t rfl]; simp

theorem pyStrip_rev_eq (l : List Char) :
    (pyStrip l).reverse = (l.dropWhile isPySpace).reverse.dropWhile isPySpace := by
  unfold pyStrip
  rw [List.reverse_reverse]

/-- Decomposition: a list is whitespace, then its strip, then whitespace. -/
theorem pyStrip_decomp (l : List Char) :
    ∃ a b, l = a ++ (pyStrip l ++ b) ∧ a.all isPySpace = true ∧ b.all isPySpace = true := by
  refine ⟨l.takeWhile isPySpace,
    ((l.dropWhile isPySpace).reverse.takeWhile isPySpace).reverse, ?_, ?_, ?_⟩
  · conv_lhs => rw [← List.takeWhile_append_dropWhile (p := isPySpace) (l := l)]
    congr 1
    conv_lhs =>
      rw [← List.reverse_reverse (l.dropWhile isPySpace),
        ← List.takeWhile_append_dropWhile (p := isPySpace) (l := (l.dropWhile isPySpace).reverse)]
    rw [List.reverse_append]
    unfold pyStrip
    rfl
  · rw [List.all_eq_true]
    intro x hx
    exact List.mem_takeWhile_imp hx
  · rw [List.all_eq_true]
    intro x hx
    rw [List.mem_reverse] at hx
    exact List.mem_takeWhile_imp hx

theorem pyStrip_mem {l : List Char} {c : Char} (h : c ∈ pyStrip l) : c ∈ l := by
  obtain ⟨a, b, hd, -, -⟩ := pyStrip_decomp l
  rw [hd]
  simp only [List.mem_append]
  exact Or.inr (Or.inl h)

theorem pyStrip_nil_iff {l : List Char} : pyStrip l = [] ↔ allWs l = true := by
  constructor
  · intro h
    obtain ⟨a, b, hd, ha, hb⟩ := pyStrip_decomp l
    rw [h] at hd
    rw [allWs, List.all_eq_true]
    intro x hx
    rw [hd] at hx
    simp only [List.nil_append, List.mem_append] at hx
    rcases hx with hx | hx
    · exact List.all_eq_true.mp ha x hx
    · exact List.all_eq_true.mp hb x hx
  · intro h
    rw [allWs, List.all_eq_true] at h
    have h1 : l.dropWhile isPySpace = [] := List.dropWhile_eq_nil_iff.mpr h
    unfold pyStrip
    rw [h1]
    rfl

/-- The strip of `l` is an initial segment of `l.dropWhile isPySpace`. -/
theorem pyStrip_pre_mid (l : List Char) :
    l.dropWhile isPySpace =
      pyStrip l ++ ((l.dropWhile isPySpace).reverse.takeWhile isPySpace).reverse := by
  have h := List.takeWhile_append_dropWhile (p := isPySpace)
    (l := (l.dropWhile isPySpace).reverse)
  have h2 := congrArg List.reverse h
  rw [List.reverse_append, List.reverse_reverse] at h2
  exact h2.symm

theorem pyStrip_head {l : List Char} {c : Char} {r : List Char}
    (h : pyStrip l = c :: r) : isPySpace c = false := by
  have h1 := pyStrip_pre_mid l
  rw [h] at h1
  exact dropWhile_head_false l h1

theorem pyStrip_rev_head {l : List Char} {c : Char} {r : List Char}
    (h : (pyStrip l).reverse = c :: r) : isPySpace c = false := by
  rw [pyStrip_rev_eq] at h
  exact dropWhile_head_false _ h

/-- A list whose first and last characters are not whitespace is its own strip. -/
theorem pyStrip_fix {m : List Char}
    (h1 : ∀ c r, m = c :: r → isPySpace c = false)
    (h2 : ∀ c r, m.reverse = c :: r → isPySpace c = false) : pyStrip m = m := by
  unfold pyStrip
  rw [dropWhile_eq_self h1, dropWhile_eq_self h2, List.reverse_reverse]

theorem pyStrip_idem (l : List Char) : pyStrip (pyStrip l) = pyStrip l := by
  apply pyStrip_fix
  · intro c r h
    exact pyStrip_head h
  · intro c r h
    exact pyStrip_rev_head h

/-! ### Facts about `splitNl` and `joinNl` -/

theorem joinWith_cons_cons (sep l l' : List Char) (ls : List (List Char)) :
    joinWith sep (l :: l' :: ls) = l ++ sep ++ joinWith sep (l' :: ls) := rfl

theorem joinNl_cons_cons (l l' : List Char) (ls : List (List Char)) :
    joinNl (l :: l' :: ls) = l ++ '\n' :: joinNl (l' :: ls) := by
  have h : joinNl (l :: l' :: ls) = (l ++ ['\n']) ++ joinNl (l' :: ls) := rfl
  rw [h, List.append_assoc]
  rfl

theorem splitNl_ne_nil : ∀ (t : List Char), splitNl t ≠ [] := by
  intro t
  induction t with
  | nil => simp [splitNl]
  | cons c t ih =>
    rw [splitNl]
    by_cases hc : c = '\n'
    · simp [hc]
    · rw [if_neg hc]
      cases hsp : splitNl t with
      | nil => simp
      | cons r rs => simp

theorem mem_splitNl_no_nl : ∀ {t l : List Char}, l ∈ splitNl t → '\n' ∉ l := by
  intro t
  induction t with
  | nil =>
    intro l hl
    simp [splitNl] at hl
    simp [hl]
  | cons c t ih =>
    intro l hl
    rw [splitNl] at hl
    by_cases hc : c = '\n'
    · rw [if_pos hc] at hl
      rcases List.mem_cons.mp hl with h | h
      · simp [h]
      · exact ih h
    · rw [if_neg hc] at hl
      cases hsp : splitNl t with
      | nil => exact absurd hsp (splitNl_ne_nil t)
      | cons r rs =>
        rw [hsp] at hl
        rcases List.mem_cons.mp hl with h | h
        · subst h
          intro hmem
          rcases List.mem_cons.mp hmem with h | h
          · exact hc h.symm
          · exact ih (hsp ▸ List.mem_cons_self r rs) h
        · exact ih (hsp ▸ List.mem_cons.mpr (Or.inr h))

theorem mem_splitNl_subset : ∀ {t l : List Char} {c : Char},
    l ∈ splitNl t → c ∈ l → c ∈ t := by
  intro t
  induction t with
  | nil =>
    intro l c hl hc
    simp [splitNl] at hl
    subst hl
    simp at hc
  | cons a t ih =>
    intro l c hl hc
    rw [splitNl] at hl
    by_cases ha : a = '\n'
    · rw [if_pos ha] at hl
      rcases List.mem_cons.mp hl with h | h
      · subst h; simp at hc
      · exact List.mem_cons.mpr (Or.inr (ih h hc))
    · rw [if_neg ha] at hl
      cases hsp : splitNl t with
      | nil => exact absurd hsp (splitNl_ne_nil t)
      | cons r rs =>
        rw [hsp] at hl
        rcases List.mem_cons.mp hl with h | h
        · subst h
          rcases List.mem_cons.mp hc with h | h
          · exact List.mem_cons.mpr (Or.inl h)
          · exact List.mem_cons.mpr (Or.inr (ih (hsp ▸ List.mem_cons_self r rs) h))
        · exact List.mem_cons.mpr (Or.inr (ih (hsp ▸ List.mem_cons.mpr (Or.inr h)) hc))

theorem splitNl_head_hd : ∀ {t r : List Char} {rs : List (List Char)} {x : Char} {xs : List Char},
    splitNl t = r :: rs → r = x :: xs → t.head? = some x := by
  intro t
  induction t with
  | nil =>
    intro r rs x xs h hr
    rw [splitNl] at h
    cases h
    cases hr
  | cons a t _ =>
    intro r rs x xs h hr
    rw [splitNl] at h
    by_cases ha : a = '\n'
    · rw [if_pos ha] at h
      cases h
      cases hr
    · rw [if_neg ha] at h
      cases hsp : splitNl t with
      | nil => exact absurd hsp (splitNl_ne_nil t)
      | cons r' rs' =>
        rw [hsp] at h
        cases h
        cases hr
        rfl

/-- `splitNl` of a newline-free list is that single line. -/
theorem splitNl_no_nl {l : List Char} (h : '\n' ∉ l) : splitNl l = [l] := by
  induction l with
  | nil => rfl
  | cons c t ih =>
    have hc : ¬(c = '\n') := fun hh => h (hh ▸ List.mem_cons_self c t)
    have ht : '\n' ∉ t := fun hh => h (List.mem_cons.mpr (Or.inr hh))
    rw [splitNl, if_neg hc, ih ht]

theorem splitNl_append_nl {l m : List Char} (h : '\n' ∉ l) :
    splitNl (l ++ '\n' :: m) = l :: splitNl m := by
  induction l with
  | nil => simp [splitNl]
  | cons c t ih =>
    have hc : ¬(c = '\n') := fun hh => h (hh ▸ List.mem_cons_self c t)
    have ht : '\n' ∉ t := fun hh => h (List.mem_cons.mpr (Or.inr hh))
    rw [List.cons_append, splitNl, if_neg hc, ih ht]

/-- Splitting inverts joining for newline-free lines. -/
theorem splitNl_joinNl : ∀ {ls : List (List Char)}, ls ≠ [] →
    (∀ l ∈ ls, '\n' ∉ l) → splitNl (joinNl ls) = ls := by
  intro ls
  induction ls with
  | nil => intro h; exact absurd rfl h
  | cons l ls ih =>
    intro _ hnl
    cases ls with
    | nil => exact splitNl_no_nl (hnl l (List.mem_cons_self l []))
    | cons l' ls' =>
      rw [joinNl_cons_cons, splitNl_append_nl (hnl l (List.mem_cons_self l _)),
        ih (by simp) (fun x hx => hnl x (List.mem_cons.mpr (Or.inr hx)))]

theorem joinNl_head : ∀ {A : List (List Char)} {l : List Char} {x : Char} {xs : List Char},
    l = x :: xs → (joinNl (l :: A)).head? = some x := by
  intro A l x xs h
  cases A with
  | nil => rw [joinNl, joinWith, h]; rfl
  | cons l' ls =>
    rw [joinNl_cons_cons, h]
    rfl

theorem mem_joinNl : ∀ {L : List (List Char)} {c : Char},
    c ∈ joinNl L → c = '\n' ∨ ∃ l ∈ L, c ∈ l := by
  intro L
  induction L with
  | nil => intro c hc; simp [joinNl, joinWith] at hc
  | cons l ls ih =>
    intro c hc
    cases ls with
    | nil =>
      rw [joinNl, joinWith] at hc
      exact Or.inr ⟨l, List.mem_cons_self l [], hc⟩
    | cons l' ls' =>
      rw [joinNl_cons_cons] at hc
      rw [List.mem_append] at hc
      rcases hc with h | h
      · exact Or.inr ⟨l, List.mem_cons_self l _, h⟩
      · rcases List.mem_cons.mp h with h | h
        · exact Or.inl h
        · rcases ih h with h | ⟨m, hm, hcm⟩
          · exact Or.inl h
          · exact Or.inr ⟨m, List.mem_cons.mpr (Or.inr hm), hcm⟩

/-! ### Adjacency invariants: fixed points of the two collapses -/

theorem relNl_symm {a b : Char} (h : RelNl a b) : RelNl b a := by
  unfold RelNl at h ⊢
  tauto

theorem relHT_symm {a b : Char} (h : RelHT a b) : RelHT b a := by
  unfold RelHT at h ⊢
  tauto

theorem transformRun_id {r : List Char} (h : r.count '\n' ≤ 2) : transformRun r = r := by
  unfold transformRun
  rw [if_neg]
  omega

theorem chain'_dropWhile {R : Char → Char → Prop} {p : Char → Bool} :
    ∀ {l : List Char}, List.Chain' R l → List.Chain' R (l.dropWhile p) := by
  intro l
  induction l with
  | nil => intro h; exact h
  | cons c t ih =>
    intro h
    rw [List.dropWhile_cons]
    by_cases hp : p c
    · rw [if_pos hp]
      exact ih h.tail
    · rw [if_neg hp]
      exact h

theorem chain'_reverse_of_symm {R : Char → Char → Prop}
    (hs : ∀ a b, R a b → R b a) {l : List Char} (h : List.Chain' R l) :
    List.Chain' R l.reverse := by
  rw [List.chain'_reverse]
  exact h.imp (fun a b hab => hs a b hab)

theorem chain'_pyStrip {R : Char → Char → Prop} (hs : ∀ a b, R a b → R b a)
    {l : List Char} (h : List.Chain' R l) : List.Chain' R (pyStrip l) := by
  unfold pyStrip
  exact chain'_reverse_of_symm hs (chain'_dropWhile (chain'_reverse_of_symm hs
    (chain'_dropWhile h)))

theorem chain'_splitNl {R : Char → Char → Prop} :
    ∀ {t : List Char}, List.Chain' R t → ∀ l ∈ splitNl t, List.Chain' R l := by
  intro t
  induction t with
  | nil =>
    intro _ l hl
    simp [splitNl] at hl
    simp [hl]
  | cons c t ih =>
    intro h l hl
    rw [splitNl] at hl
    by_cases hc : c = '\n'
    · rw [if_pos hc] at hl
      rcases List.mem_cons.mp hl with hh | hh
      · simp [hh]
      · exact ih h.tail l hh
    · rw [if_neg hc] at hl
      cases hsp : splitNl t with
      | nil => exact absurd hsp (splitNl_ne_nil t)
      | cons r rs =>
        rw [hsp] at hl
        rcases List.mem_cons.mp hl with hh | hh
        · subst hh
          rw [List.chain'_cons']
          refine ⟨?_, ih h.tail r (hsp ▸ List.mem_cons_self r rs)⟩
          intro y hy
          cases r with
          | nil => simp at hy
          | cons x xs =>
            simp at hy
            subst hy
            have hhd := splitNl_head_hd hsp rfl
            cases t with
            | nil => simp at hhd
            | cons a t' =>
              simp at hhd
              subst hhd
              exact (List.chain'_cons.mp h).1
        · exact ih h.tail l (hsp ▸ List.mem_cons.mpr (Or.inr hh))

/-- Character-level output facts of `htAux`. -/
theorem htAux_no_tab : ∀ (t : List Char) (p : Bool), '\t' ∉ htAux p t := by
  intro t
  induction t with
  | nil => intro p; rw [htAux]; exact List.not_mem_nil _
  | cons c t ih =>
    intro p
    by_cases hc : isHT c = true
    · cases p with
      | true =>
        rw [htAux, if_pos hc, if_pos rfl]
        exact ih true
      | false =>
        rw [htAux, if_pos hc, if_neg (by simp)]
        intro hm
        rcases List.mem_cons.mp hm with hh | hh
        · exact absurd hh (by decide)
        · exact ih true hh
    · rw [htAux, if_neg hc]
      intro hm
      rcases List.mem_cons.mp hm with hh | hh
      · apply hc
        rw [← hh]
        decide
      · exact ih false hh

theorem htAux_true_head : ∀ {t : List Char} {x : Char} {xs : List Char},
    htAux true t = x :: xs → isHT x = false := by
  intro t
  induction t with
  | nil => intro x xs h; simp [htAux] at h
  | cons c t ih =>
    intro x xs h
    rw [htAux] at h
    by_cases hc : isHT c
    · rw [if_pos hc, if_pos rfl] at h
      exact ih h
    · rw [if_neg hc] at h
      cases h
      simpa using hc

theorem htAux_chain : ∀ (t : List Char) (p : Bool), List.Chain' RelHT (htAux p t) := by
  intro t
  induction t with
  | nil => intro p; rw [htAux]; exact List.chain'_nil
  | cons c t ih =>
    intro p
    by_cases hc : isHT c = true
    · cases p with
      | true =>
        rw [htAux, if_pos hc, if_pos rfl]
        exact ih true
      | false =>
        rw [htAux, if_pos hc, if_neg (by simp)]
        rw [List.chain'_cons']
        refine ⟨?_, ih true⟩
        intro y hy
        cases hout : htAux true t with
        | nil => rw [hout] at hy; simp at hy
        | cons z zs =>
          rw [hout] at hy
          simp at hy
          subst hy
          intro hand
          have hz := htAux_true_head hout
          rw [hz] at hand
          exact absurd hand.2 (by simp)
    · rw [htAux, if_neg hc]
      rw [List.chain'_cons']
      refine ⟨?_, ih false⟩
      intro y hy
      intro hand
      exact hc hand.1

theorem ctAux_fix : ∀ (t pend : List Char),
    List.Chain' RelNl (pend.reverse ++ t) → pend.all isPySpace = true →
    pend.count '\n' ≤ 1 → ctAux pend t = pend.reverse ++ t := by
  intro t
  induction t with
  | nil =>
    intro pend _ _ hcount
    rw [ctAux, List.append_nil, transformRun_id]
    rw [List.count_reverse]
    omega
  | cons c t ih =>
    intro pend hchain hall hcount
    by_cases hws : isPySpace c = true
    · rw [ctAux, if_pos hws]
      have hre : (c :: pend).reverse ++ t = pend.reverse ++ c :: t := by
        rw [List.reverse_cons, List.append_assoc]
        rfl
      have hcnt : (c :: pend).count '\n' ≤ 1 := by
        by_cases hcn : c = '\n'
        · cases pend with
          | nil => subst hcn; simp
          | cons p pr =>
            exfalso
            have hsplit := (List.chain'_append.mp hchain).2.2
            have hlast : ((p :: pr).reverse).getLast? = some p := by
              rw [List.reverse_cons]
              exact List.getLast?_concat _
            have hrel : RelNl p c := hsplit p hlast c rfl
            apply hrel
            refine ⟨?_, hws, Or.inr hcn⟩
            have := List.all_eq_true.mp hall p (List.mem_cons_self p pr)
            exact this
        · rw [List.count_cons]
          have hbe : (c == '\n') = false := by simpa using hcn
          rw [hbe]
          simpa using hcount
      have hall2 : (c :: pend).all isPySpace = true := by
        rw [List.all_cons, hws, hall]
        rfl
      rw [ih (c :: pend) (by rw [hre]; exact hchain) hall2 hcnt, hre]
    · rw [ctAux, if_neg hws]
      have ht : ctAux [] t = t := by
        apply ih []
        · have h2 := (List.chain'_append.mp hchain).2.1
          exact h2.tail
        · rfl
        · simp
      rw [ht, transformRun_id]
      rw [List.count_reverse]
      omega

theorem collapseTriple_fix {t : List Char} (h : List.Chain' RelNl t) :
    collapseTriple t = t := by
  unfold collapseTriple
  have := ctAux_fix t [] (by simpa using h) rfl (by simp)
  simpa using this

theorem htAux_fix : ∀ (t : List Char) (p : Bool),
    (∀ c ∈ t, ¬(c = '\t')) → List.Chain' RelHT t →
    (p = true → ∀ x xs, t = x :: xs → isHT x = false) → htAux p t = t := by
  intro t
  induction t with
  | nil => intro p _ _ _; rw [htAux]
  | cons c t ih =>
    intro p hnt hch hflag
    by_cases hc : isHT c = true
    · have hcsp : c = ' ' := by
        have h1 := hnt c (List.mem_cons_self c t)
        simp [isHT] at hc
        tauto
      cases p with
      | true =>
        exact absurd (hflag rfl c t rfl) (by rw [hc]; simp)
      | false =>
        rw [htAux, if_pos hc, if_neg (by simp), hcsp]
        congr 1
        apply ih true
        · intro x hx
          exact hnt x (List.mem_cons.mpr (Or.inr hx))
        · exact hch.tail
        · intro _ x xs hxx
          subst hxx
          have hrel : RelHT c x := (List.chain'_cons.mp hch).1
          by_cases hhx : isHT x = true
          · exact absurd ⟨hc, hhx⟩ hrel
          · simpa using hhx
    · rw [htAux, if_neg hc]
      congr 1
      apply ih false
      · intro x hx
        exact hnt x (List.mem_cons.mpr (Or.inr hx))
      · exact hch.tail
      · intro h
        cases h

/-! ### Structure of `clean_text_block` output -/

theorem clean_eq_joinNl (t : List Char) : clean_text_block t = joinNl (cleanLines t) := by
  unfold clean_text_block cleanLines
  by_cases h : t = []
  · rw [if_pos h]
    subst h
    rfl
  · rw [if_neg h]

theorem keepLine_length {l : List Char} (h : keepLine l = true) : 3 ≤ l.length := by
  unfold keepLine at h
  simp only [Bool.not_eq_true', Bool.or_eq_false_iff, decide_eq_false_iff_not] at h
  omega

theorem chain'_relNl_no_nl : ∀ {l : List Char}, '\n' ∉ l → List.Chain' RelNl l := by
  intro l
  induction l with
  | nil => intro _; exact List.chain'_nil
  | cons c t ih =>
    intro h
    rw [List.chain'_cons']
    constructor
    · intro y hy
      have hyt : y ∈ t := List.mem_of_mem_head? hy
      intro ⟨_, _, hor⟩
      rcases hor with hh | hh
      · exact h (hh ▸ List.mem_cons_self c t)
      · exact h (List.mem_cons.mpr (Or.inr (hh ▸ hyt)))
    · exact ih (fun hm => h (List.mem_cons.mpr (Or.inr hm)))

theorem cleanLines_facts {t l : List Char} (h : l ∈ cleanLines t) :
    keepLine l = true ∧ pyStrip l = l ∧ l ≠ [] ∧ '\n' ∉ l ∧
    (∀ c ∈ l, ¬(c = '\t')) ∧ List.Chain' RelHT l ∧
    (∀ c r, l = c :: r → isPySpace c = false) ∧
    (∀ c r, l.reverse = c :: r → isPySpace c = false) := by
  unfold cleanLines at h
  have hkeep := (List.mem_filter.mp h).2
  have hmap := (List.mem_filter.mp h).1
  obtain ⟨x, hx, hlx⟩ := List.mem_map.mp hmap
  subst hlx
  refine ⟨hkeep, pyStrip_idem x, ?_, ?_, ?_, ?_, ?_, ?_⟩
  · intro hnil
    have := keepLine_length hkeep
    rw [hnil] at this
    simp at this
  · intro hmem
    exact mem_splitNl_no_nl hx (pyStrip_mem hmem)
  · intro c hc hct
    subst hct
    exact htAux_no_tab _ _ (mem_splitNl_subset hx (pyStrip_mem hc))
  · exact chain'_pyStrip (fun a b => relHT_symm) (chain'_splitNl (htAux_chain _ _) x hx)
  · intro c r hcr
    exact pyStrip_head hcr
  · intro c r hcr
    exact pyStrip_rev_head hcr

theorem joinNl_ne_nil {l : List Char} {ls : List (List Char)} (h : l ≠ []) :
    joinNl (l :: ls) ≠ [] := by
  cases l with
  | nil => exact absurd rfl h
  | cons x xs =>
    intro hj
    have := joinNl_head (A := ls) (l := x :: xs) rfl
    rw [hj] at this
    cases this

theorem joinNl_getLast {L : List (List Char)} (hne : ∀ l ∈ L, l ≠ []) (hL : L ≠ []) :
    ∃ l ∈ L, (joinNl L).getLast? = l.getLast? := by
  induction L with
  | nil => exact absurd rfl hL
  | cons l ls ih =>
    cases ls with
    | nil => exact ⟨l, List.mem_cons_self l [], rfl⟩
    | cons l' ls' =>
      have hJ : joinNl (l' :: ls') ≠ [] :=
        joinNl_ne_nil (hne l' (List.mem_cons.mpr (Or.inr (List.mem_cons_self l' ls'))))
      obtain ⟨m, hm, hlast⟩ := ih (fun x hx => hne x (List.mem_cons.mpr (Or.inr hx))) (by simp)
      refine ⟨m, List.mem_cons.mpr (Or.inr hm), ?_⟩
      rw [joinNl_cons_cons, List.getLast?_append_of_ne_nil _ (by simp)]
      have hcons : ('\n' :: joinNl (l' :: ls')) = ['\n'] ++ joinNl (l' :: ls') := rfl
      rw [hcons, List.getLast?_append_of_ne_nil _ hJ]
      exact hlast

/-- Assemble a `Chain'` over a newline-join from per-line chains and
compatibility of the separator with the line ends. -/
theorem chain'_joinNl {R : Char → Char → Prop} :
    ∀ {L : List (List Char)},
    (∀ l ∈ L, l ≠ []) →
    (∀ l ∈ L, List.Chain' R l) →
    (∀ l ∈ L, ∀ x xs, l = x :: xs → R '\n' x) →
    (∀ l ∈ L, ∀ x xs, l.reverse = x :: xs → R x '\n') →
    List.Chain' R (joinNl L) := by
  intro L
  induction L with
  | nil => intro _ _ _ _; exact List.chain'_nil
  | cons l ls ih =>
    intro hne hch hhd hlt
    cases ls with
    | nil => exact hch l (List.mem_cons_self l [])
    | cons l' ls' =>
      rw [joinNl_cons_cons, List.chain'_append]
      refine ⟨hch l (List.mem_cons_self l _), ?_, ?_⟩
      · rw [List.chain'_cons']
        constructor
        · intro y hy
          cases hl' : l' with
          | nil =>
            exact absurd hl' (hne l' (List.mem_cons.mpr (Or.inr (List.mem_cons_self l' ls'))))
          | cons x xs =>
            have hhead := joinNl_head (A := ls') hl'
            rw [hhead] at hy
            simp at hy
            subst hy
            exact hhd l' (List.mem_cons.mpr (Or.inr (List.mem_cons_self l' ls'))) x xs hl'
        · exact ih (fun x hx => hne x (List.mem_cons.mpr (Or.inr hx)))
            (fun x hx => hch x (List.mem_cons.mpr (Or.inr hx)))
            (fun x hx => hhd x (List.mem_cons.mpr (Or.inr hx)))
            (fun x hx => hlt x (List.mem_cons.mpr (Or.inr hx)))
      · intro x hx y hy
        simp at hy
        subst hy
        rw [← List.head?_reverse] at hx
        cases hrev : l.reverse with
        | nil =>
          rw [hrev] at hx
          cases hx
        | cons c r =>
          rw [hrev] at hx
          simp at hx
          subst hx
          exact hlt l (List.mem_cons_self l _) c r hrev

theorem map_strip_id : ∀ {L : List (List Char)}, (∀ l ∈ L, pyStrip l = l) →
    L.map pyStrip = L := by
  intro L
  induction L with
  | nil => intro _; rfl
  | cons l ls ih =>
    intro h
    rw [List.map_cons, h l (List.mem_cons_self l ls),
      ih (fun x hx => h x (List.mem_cons.mpr (Or.inr hx)))]

theorem collapseTriple_clean (t : List Char) :
    collapseTriple (clean_text_block t) = clean_text_block t := by
  rw [clean_eq_joinNl]
  apply collapseTriple_fix
  apply chain'_joinNl
  · intro l hl
    exact (cleanLines_facts hl).2.2.1
  · intro l hl
    exact chain'_relNl_no_nl (cleanLines_facts hl).2.2.2.1
  · intro l hl x xs hxx
    obtain ⟨-, -, -, -, -, -, hhd, -⟩ := cleanLines_facts hl
    rintro ⟨-, hwx, -⟩
    rw [hhd x xs hxx] at hwx
    cases hwx
  · intro l hl x xs hxx
    obtain ⟨-, -, -, -, -, -, -, hrv⟩ := cleanLines_facts hl
    rintro ⟨hwx, -, -⟩
    rw [hrv x xs hxx] at hwx
    cases hwx

theorem collapseHT_clean (t : List Char) :
    collapseHT (clean_text_block t) = clean_text_block t := by
  rw [clean_eq_joinNl]
  unfold collapseHT
  apply htAux_fix
  · intro c hc hct
    subst hct
    rcases mem_joinNl hc with hh | ⟨l, hl, hmem⟩
    · exact absurd hh (by decide)
    · obtain ⟨-, -, -, -, hnt, -, -, -⟩ := cleanLines_facts hl
      exact hnt _ hmem rfl
  · apply chain'_joinNl
    · intro l hl
      exact (cleanLines_facts hl).2.2.1
    · intro l hl
      exact (cleanLines_facts hl).2.2.2.2.2.1
    · intro l hl x xs hxx
      rintro ⟨h1, -⟩
      exact absurd h1 (by decide)
    · intro l hl x xs hxx
      rintro ⟨-, h2⟩
      exact absurd h2 (by decide)
  · intro h
    cases h

theorem splitNl_clean {t : List Char} (h : cleanLines t ≠ []) :
    splitNl (clean_text_block t) = cleanLines t := by
  rw [clean_eq_joinNl]
  exact splitNl_joinNl h (fun l hl => (cleanLines_facts hl).2.2.2.1)

theorem pyStrip_clean (t : List Char) :
    pyStrip (clean_text_block t) = clean_text_block t := by
  by_cases hL : cleanLines t = []
  · rw [clean_eq_joinNl, hL]
    rfl
  · rw [clean_eq_joinNl]
    apply pyStrip_fix
    · intro c r hcr
      cases hLL : cleanLines t with
      | nil => exact absurd hLL hL
      | cons l ls =>
        have hlmem : l ∈ cleanLines t := by
          rw [hLL]
          exact List.mem_cons_self l ls
        obtain ⟨-, -, hne, -, -, -, hhd, -⟩ := cleanLines_facts hlmem
        cases hl : l with
        | nil => exact absurd hl hne
        | cons x xs =>
          have hh := joinNl_head (A := ls) hl
          rw [hLL] at hcr
          rw [hcr] at hh
          simp at hh
          subst hh
          exact hhd _ _ hl
    · intro c r hcr
      obtain ⟨m, hm, hlast⟩ :=
        joinNl_getLast (fun l hl => (cleanLines_facts hl).2.2.1) hL
      have h1 : (joinNl (cleanLines t)).getLast? = some c := by
        rw [← List.head?_reverse, hcr]
        rfl
      rw [hlast, ← List.head?_reverse] at h1
      cases hmr : m.reverse with
      | nil =>
        rw [hmr] at h1
        cases h1
      | cons d ds =>
        rw [hmr] at h1
        simp at h1
        subst h1
        obtain ⟨-, -, -, -, -, -, -, hrv⟩ := cleanLines_facts hm
        exact hrv d ds hmr

theorem clean_text_block_idem (t : List Char) :
    clean_text_block (clean_text_block t) = clean_text_block t := by
  by_cases hL : cleanLines t = []
  · have hc : clean_text_block t = [] := by
      rw [clean_eq_joinNl, hL]
      rfl
    rw [hc]
    rfl
  · conv_lhs => rw [clean_eq_joinNl (clean_text_block t)]
    unfold cleanLines
    rw [collapseTriple_clean, collapseHT_clean, splitNl_clean hL,
      map_strip_id (fun l hl => (cleanLines_facts hl).2.1),
      List.filter_eq_self.mpr (fun l hl => (cleanLines_facts hl).1),
      ← clean_eq_joinNl]

/-! ### The classification loop as a filter of the processed blocks -/

theorem filter_length_sum (p : List Char → Bool) :
    ∀ (L : List (List Char)),
    (L.filter p).length + (L.filter (fun x => !(p x))).length = L.length := by
  intro L
  induction L with
  | nil => rfl
  | cons l ls ih =>
    rw [List.filter_cons, List.filter_cons]
    by_cases hp : p l = true
    · rw [if_pos hp, if_neg (by rw [hp]; simp)]
      simp only [List.length_cons]
      omega
    · rw [if_neg hp, if_pos (by rw [Bool.not_eq_true] at hp; rw [hp]; rfl)]
      simp only [List.length_cons]
      omega

theorem sepGo_eq_filter : ∀ (bs : List (List Char)) (i : Nat) (hr : Bool),
    sepGo i hr bs =
      ((procGo i hr bs).filter (fun b => !(is_supplementary_content b)),
       (procGo i hr bs).filter (fun b => is_supplementary_content b)) := by
  intro bs
  induction bs with
  | nil => intro i hr; rfl
  | cons b bs ih =>
    intro i hr
    simp only [sepGo, procGo]
    by_cases hb : pyStrip b = []
    · rw [if_pos hb, if_pos hb]
      exact ih (i + 1) hr
    · rw [if_neg hb, if_neg hb, List.filter_cons, List.filter_cons]
      by_cases hs : is_supplementary_content (processBlock hr i b) = true
      · rw [if_pos (by rw [hs]), if_neg (by rw [hs]; simp), if_pos hs, ih (i + 1) hr]
      · rw [Bool.not_eq_true] at hs
        rw [if_neg (by rw [hs]; simp), if_pos (by rw [hs]; rfl), if_neg (by rw [hs]; simp),
          ih (i + 1) hr]

/-! ### Direct extraction: app.py aborts on page errors, bpp.py does not -/

theorem tagPage_not_ws (n : Nat) (p : List Char) : (tagPage n p).all isPySpace = false := by
  unfold tagPage
  rw [List.append_assoc, List.append_assoc, List.all_append]
  have h : (('\n' :: '-' :: '-' :: '-' :: ' ' :: 'P' :: 'a' :: 'g' :: 'e' :: ' ' :: []) :
      List Char).all isPySpace = false := by decide
  rw [h]
  rfl

theorem appDirectGo_noerr : ∀ (pages : List PageResult), none ∉ pages → ∀ (n : Nat),
    ∃ r, appDirectGo n pages = some r ∧ allWs r = pages.all pageAllWs := by
  intro pages
  induction pages with
  | nil => intro _ n; exact ⟨[], rfl, rfl⟩
  | cons pg rest ih =>
    intro hno n
    cases pg with
    | none => exact absurd (List.mem_cons_self _ _) hno
    | some p =>
      obtain ⟨r, hr, hws⟩ := ih (fun hm => hno (List.mem_cons.mpr (Or.inr hm))) (n + 1)
      refine ⟨(if pyStrip p = [] then [] else tagPage n p) ++ r, ?_, ?_⟩
      · rw [appDirectGo, hr]
      · rw [allWs, List.all_append]
        by_cases hp : pyStrip p = []
        · rw [if_pos hp]
          have hap : allWs p = true := pyStrip_nil_iff.mp hp
          rw [List.all_cons]
          show (([] : List Char).all isPySpace && r.all isPySpace) = _
          rw [List.all_nil]
          show r.all isPySpace = (pageAllWs (some p) && rest.all pageAllWs)
          show r.all isPySpace = (allWs p && rest.all pageAllWs)
          rw [hap, ← hws]
          rfl
        · rw [if_neg hp, tagPage_not_ws]
          have hap : allWs p = false := by
            cases haw : allWs p with
            | false => rfl
            | true => exact absurd (pyStrip_nil_iff.mpr haw) hp
          rw [List.all_cons]
          show false = (pageAllWs (some p) && rest.all pageAllWs)
          show false = (allWs p && rest.all pageAllWs)
          rw [hap]
          rfl

theorem bppDirectGo_err : ∀ (ps : List PageResult) (n : Nat) (qs : List PageResult),
    (bppDirectGo n (ps ++ none :: qs)).1 = (bppDirectGo n (ps ++ some [] :: qs)).1 ∧
    (n + ps.length) ∈ (bppDirectGo n (ps ++ none :: qs)).2 := by
  intro ps
  induction ps with
  | nil =>
    intro n qs
    constructor
    · rw [List.nil_append, List.nil_append, bppDirectGo, bppDirectGo]
      have h : pyStrip ([] : List Char) = [] := rfl
      simp [h]
    · rw [List.nil_append, bppDirectGo]
      simp
  | cons pg ps ih =>
    intro n qs
    have harith : n + (pg :: ps).length = (n + 1) + ps.length := by
      simp only [List.length_cons]
      omega
    cases pg with
    | none =>
      constructor
      · rw [List.cons_append, List.cons_append, bppDirectGo, bppDirectGo]
        exact (ih (n + 1) qs).1
      · rw [List.cons_append, bppDirectGo, harith]
        exact List.mem_cons.mpr (Or.inr (ih (n + 1) qs).2)
    | some t =>
      constructor
      · rw [List.cons_append, List.cons_append, bppDirectGo, bppDirectGo,
          (ih (n + 1) qs).1]
      · rw [List.cons_append, bppDirectGo, harith]
        exact (ih (n + 1) qs).2

theorem any_congr_mem {p q : List Char → Bool} :
    ∀ {L : List (List Char)}, (∀ a ∈ L, p a = q a) → L.any p = L.any q := by
  intro L
  induction L with
  | nil => intro _; rfl
  | cons l ls ih =>
    intro h
    rw [List.any_cons, List.any_cons, h l (List.mem_cons_self l ls),
      ih (fun x hx => h x (List.mem_cons.mpr (Or.inr hx)))]

/-! ### The claims -/

/-- C9: boilerplate stripping is idempotent — `clean_text_block` applied to an
already-cleaned block changes nothing; in particular a block containing a bare
page-number line `"4"` has that line removed, and cleaning again is a no-op. -/
theorem claim9_idempotent :
    (∀ t : List Char, clean_text_block (clean_text_block t) = clean_text_block t) ∧
    clean_text_block (("first line here\n4\nsecond line here").data) =
      ("first line here\nsecond line here").data := by
  constructor
  · exact clean_text_block_idem
  · decide

/-- C2: for a cleaned block none of whose first three (stripped) lines matches
a supplementary pattern, `is_supplementary_content` holds exactly when the
block has more than 3 lines and more than 30% of its lines look tabular
(two digit groups separated by whitespace, or more than two tabs). -/
theorem claim2_ratio (t : List Char)
    (h : ((splitNl (pyStrip (clean_text_block t))).take 3).all
        (fun line => !(matchesSuppPat (pyStrip line))) = true) :
    is_supplementary_content (clean_text_block t) = true ↔
      (3 < (splitNl (pyStrip (clean_text_block t))).length ∧
       3 * (splitNl (pyStrip (clean_text_block t))).length <
         10 * ((splitNl (pyStrip (clean_text_block t))).filter isTabularLine).length) := by
  have hany : ((splitNl (pyStrip (clean_text_block t))).take 3).any
      (fun line => matchesSuppPat (pyStrip line)) = false := by
    rw [List.any_eq_false]
    intro x hx
    have hx2 := List.all_eq_true.mp h x hx
    simpa using hx2
  simp only [is_supplementary_content]
  rw [hany]
  simp

/-- Witness for C2 at spec scenario B: six lines, three of them tabular. -/
theorem claim2_witness :
    is_supplementary_content (clean_text_block
      (("alpha beta gamma\nsecond prose line\nthird prose line\n12 45 7\n88 99\n33 44").data)) =
      true := by
  have h := claim2_ratio
    (("alpha beta gamma\nsecond prose line\nthird prose line\n12 45 7\n88 99\n33 44").data)
    (by decide)
  exact h.mpr (by decide)

/-- C1 fails as stated: the line `indexs` — `index` with the optional plural
`s` the claim grants to every solo keyword — is the sole (non-empty) line of a
cleaned block, matches the claim's indicator list, yet the code classifies the
block as Main: the code's pattern list only makes the plural optional for
`reference`. -/
theorem claim1_counterexample :
    (firstThreeNonEmpty (("indexs").data)).any claimIndicatorLine = true ∧
    clean_text_block (("indexs").data) = ("indexs").data ∧
    is_supplementary_content (("indexs").data) = false := by
  decide

/-- C1 (amended): for a cleaned block, if any of the first three non-empty
lines matches one of the code's supplementary patterns — where only
`reference` carries an optional plural `s`, and `bibliography`, `index`,
`glossary` must appear exactly — the block is classified Supplementary,
regardless of its remaining lines. -/
theorem claim1_header_match (t : List Char)
    (h : (firstThreeNonEmpty (clean_text_block t)).any
        (fun line => matchesSuppPat line) = true) :
    is_supplementary_content (clean_text_block t) = true := by
  by_cases hL : cleanLines t = []
  · rw [clean_eq_joinNl t, hL] at h
    exact absurd h (by decide)
  · have hb : pyStrip (clean_text_block t) = clean_text_block t := pyStrip_clean t
    have hsp : splitNl (clean_text_block t) = cleanLines t := splitNl_clean hL
    have hft : firstThreeNonEmpty (clean_text_block t) = (cleanLines t).take 3 := by
      unfold firstThreeNonEmpty
      rw [hb, hsp, map_strip_id (fun l hl => (cleanLines_facts hl).2.1),
        List.filter_eq_self.mpr (fun l hl => by
          simpa using (cleanLines_facts hl).2.2.1)]
    rw [hft] at h
    simp only [is_supplementary_content]
    rw [hb, hsp]
    have heq : ((cleanLines t).take 3).any (fun line => matchesSuppPat (pyStrip line)) =
        ((cleanLines t).take 3).any (fun line => matchesSuppPat line) := by
      apply any_congr_mem
      intro a ha
      rw [(cleanLines_facts (List.mem_of_mem_take ha)).2.1]
    rw [heq, h]
    rfl

/-- Witness for C1 (amended) at spec scenario A: `Table 3: ...` heads the block. -/
theorem claim1_witness :
    is_supplementary_content (clean_text_block
      (("Table 3: Revenue by Quarter\n10 20\n30 40").data)) = true :=
  claim1_header_match (("Table 3: Revenue by Quarter\n10 20\n30 40").data) (by decide)

/-- C3 fails as stated: on `"abc\n\n\n\ndef"` the claim's clause "a run of
3-or-more blank lines becomes exactly one blank line" would leave a blank line
between `abc` and `def`, but the cleaned output is `"abc\ndef"` — blank lines
are themselves shorter than 3 characters and are removed by the line filter,
so no blank line ever survives cleaning. -/
theorem claim3_counterexample :
    clean_text_block (("abc\n\n\n\ndef").data) = ("abc\ndef").data ∧
    (splitNl (clean_text_block (("abc\n\n\n\ndef").data))).all
      (fun l => decide (l ≠ [])) = true := by
  decide

/-- C3 (amended): `clean_text_block` first collapses `\n\s*\n\s*\n` whitespace
runs and `[ \t]+` runs (the latter to a single space), then keeps exactly the
stripped lines that are not boilerplate, in order; every kept line is
non-empty (blank lines fall under the shorter-than-3 rule), already stripped,
and non-boilerplate, so the output contains no blank line at all. -/
theorem claim3_line_filter (t : List Char) :
    clean_text_block t = joinNl (cleanLines t) ∧
    (cleanLines t).all
      (fun l => decide (l ≠ []) && keepLine l && decide (pyStrip l = l)) = true ∧
    (clean_text_block t = [] ∨ splitNl (clean_text_block t) = cleanLines t) := by
  refine ⟨clean_eq_joinNl t, ?_, ?_⟩
  · rw [List.all_eq_true]
    intro l hl
    obtain ⟨hk, hs, hne, -, -, -, -, -⟩ := cleanLines_facts hl
    simp [hk, hs, hne]
  · by_cases hL : cleanLines t = []
    · refine Or.inl ?_
      rw [clean_eq_joinNl t, hL]
      rfl
    · exact Or.inr (splitNl_clean hL)

/-- C4 fails as stated: the two joined texts are stripped before being
returned, so when a block cleans to the empty string the returned main text
differs from the plain blank-line join of the Main blocks (here the first
block `ab` cleans to `""`, putting a leading blank separator into the join). -/
theorem claim4_counterexample :
    (separate_content (("ab\n--- Page 1 ---\nHello there friend").data)).1 ≠
      joinWith nnSep ((sepGo 0
        (hasPageRef (("ab\n--- Page 1 ---\nHello there friend").data))
        (pySplitMarker (("ab\n--- Page 1 ---\nHello there friend").data))).1) := by
  decide

/-- C4 (amended): the main text is the Main-classified processed blocks (in
original order) joined with a blank-line separator *and then stripped*, the
supplementary text likewise for the Supplementary blocks, and the final
output appends the 60-`=` banner with the `SUPPLEMENTARY CONTENT` label and
the supplementary text exactly when the supplementary text is non-empty. -/
theorem claim4_assembly (text : List Char) :
    (separate_content text).1 =
      (if pyStrip text = [] then []
       else pyStrip (joinWith nnSep
         ((procGo 0 (hasPageRef text) (pySplitMarker text)).filter
           (fun b => !(is_supplementary_content b))))) ∧
    (separate_content text).2 =
      (if pyStrip text = [] then []
       else pyStrip (joinWith nnSep
         ((procGo 0 (hasPageRef text) (pySplitMarker text)).filter
           (fun b => is_supplementary_content b)))) ∧
    finalText text =
      (if (separate_content text).2 = [] then (separate_content text).1
       else (separate_content text).1 ++
         (('\n' :: '\n' :: []) ++ List.replicate 60 '=' ++ ('\n' :: []) ++
           ("SUPPLEMENTARY CONTENT").data ++ ('\n' :: []) ++ List.replicate 60 '=' ++
           ('\n' :: '\n' :: [])) ++ (separate_content text).2) := by
  refine ⟨?_, ?_, rfl⟩
  · unfold separate_content
    by_cases h : pyStrip text = []
    · rw [if_pos h, if_pos h]
    · rw [if_neg h, if_neg h, sepGo_eq_filter]
  · unfold separate_content
    by_cases h : pyStrip text = []
    · rw [if_pos h, if_pos h]
    · rw [if_neg h, if_neg h, sepGo_eq_filter]

/-- C5 fails as stated: on the spec's 2-page raw stream the main text is not
`"Intro text."` — the leading `--- Page 1 ---` marker line survives (the
splitter only consumes markers preceded by a newline, and marker lines are not
removed by `clean_text_block`). -/
theorem claim5_counterexample :
    (separate_content
      (("--- Page 1 ---\nIntro text.\n--- Page 2 ---\nTable 1\n1 2\n3 4").data)).1 ≠
      ("Intro text.").data := by
  decide

/-- C5 (amended): on the spec's 2-page raw stream the pipeline yields
main text `"--- Page 1 ---\nIntro text."` and supplementary text
`"--- Page 1 ---\nTable 1\n1 2\n3 4"` (the marker `separate_content`
re-inserts carries the block index `1`, not the original page number `2`),
joined by the `SUPPLEMENTARY CONTENT` banner in the final output. -/
theorem claim5_end_to_end :
    separate_content
      (("--- Page 1 ---\nIntro text.\n--- Page 2 ---\nTable 1\n1 2\n3 4").data) =
      (("--- Page 1 ---\nIntro text.").data,
       ("--- Page 1 ---\nTable 1\n1 2\n3 4").data) ∧
    finalText
      (("--- Page 1 ---\nIntro text.\n--- Page 2 ---\nTable 1\n1 2\n3 4").data) =
      ("--- Page 1 ---\nIntro text.").data ++ bannerChars ++
        ("--- Page 1 ---\nTable 1\n1 2\n3 4").data := by
  constructor
  · decide
  · decide

/-- C6 fails as stated: in `src/app.py` a page whose extraction raises makes
the whole direct pass return `None` (there is no per-page handler), so OCR is
invoked even though another page yielded non-whitespace text; without the
raising page the fallback stays off. -/
theorem claim6_counterexample :
    ocrInvoked [some (("Hello").data), none] = true ∧
    pyStrip (("Hello").data) ≠ [] ∧
    ocrInvoked [some (("Hello").data), some ([] : List Char)] = false := by
  decide

/-- C6 (amended): when no page raises, the OCR fallback is invoked exactly
when every page's extracted text is entirely whitespace (so a single page
with non-whitespace text keeps the fallback off); a raising page additionally
forces the fallback regardless of the other pages' text. -/
theorem claim6_fallback (pages : List PageResult) (h : none ∉ pages) :
    ocrInvoked pages = true ↔ pages.all pageAllWs = true := by
  obtain ⟨r, hr, hws⟩ := appDirectGo_noerr pages h 1
  unfold ocrInvoked appExtract
  rw [hr]
  show (if pyStrip r = [] then (none : Option (List Char)) else some r).isNone = true ↔
    pages.all pageAllWs = true
  by_cases hsr : pyStrip r = []
  · rw [if_pos hsr]
    rw [Option.isNone_none]
    constructor
    · intro _
      rw [← hws]
      exact pyStrip_nil_iff.mp hsr
    · intro _
      rfl
  · rw [if_neg hsr]
    rw [Option.isNone_some]
    constructor
    · intro hfalse
      cases hfalse
    · intro hall
      exfalso
      rw [← hws] at hall
      exact hsr (pyStrip_nil_iff.mpr hall)

/-- Witness for C6 (amended): a document with one page of real text and one
whitespace-only page never triggers OCR. -/
theorem claim6_witness :
    ocrInvoked [some (("Hi there").data), some (("   ").data)] = false := by
  have h := claim6_fallback [some (("Hi there").data), some (("   ").data)] (by decide)
  cases ho : ocrInvoked [some (("Hi there").data), some (("   ").data)] with
  | false => rfl
  | true => exact absurd (h.mp ho) (by decide)

/-- C7 fails as stated: in `src/app.py` the per-page loop has no handler, so a
raising first page aborts the whole direct extraction (result `None`) even
though the second page's text was extractable; `src/bpp.py`'s loop, by
contrast, recovers it. -/
theorem claim7_counterexample :
    appExtract [none, some (("Hello world").data)] = none ∧
    appExtract [some ([] : List Char), some (("Hello world").data)] =
      some (tagPage 2 (("Hello world").data)) ∧
    (bppDirectGo 1 [none, some (("Hello world").data)]).1 =
      tagPage 2 (("Hello world").data) := by
  decide

/-- C7 (amended): in `src/bpp.py`'s extraction loop a raising page is caught
locally — it contributes exactly the same text as a page extracting `""`
(nothing, page numbering undisturbed) and its page number is recorded in the
warnings — while in `src/app.py` the same failure aborts the whole direct
extraction (see the counterexample). -/
theorem claim7_bpp_recovery (n : Nat) (ps qs : List PageResult) :
    (bppDirectGo n (ps ++ none :: qs)).1 = (bppDirectGo n (ps ++ some [] :: qs)).1 ∧
    (n + ps.length) ∈ (bppDirectGo n (ps ++ none :: qs)).2 :=
  bppDirectGo_err ps n qs

/-- C8 fails as stated: the classification the pipeline gives a page segment
is not independent of the blocks before it — `separate_content` prepends a
`--- Page {i} ---` line (numbered by the segment's index) to every block at
index `i > 0`, which here pushes `Table 1` out of the three-line scan window:
the same segment is Supplementary when it stands alone and Main when another
block precedes it. -/
theorem claim8_counterexample :
    (pySplitMarker (("one one\ntwo two\nTable 1").data)).get? 0 =
      some (("one one\ntwo two\nTable 1").data) ∧
    (pySplitMarker
      (("padding text\n--- Page 1 ---\none one\ntwo two\nTable 1").data)).get? 1 =
      some (("one one\ntwo two\nTable 1").data) ∧
    blockClassAt (("one one\ntwo two\nTable 1").data) 0 = some true ∧
    blockClassAt
      (("padding text\n--- Page 1 ---\none one\ntwo two\nTable 1").data) 1 =
      some false := by
  decide

/-- C8 (amended): `is_supplementary_content` itself is a pure function of the
block string, and the pipeline's classification decision for the segment at
index `i` depends only on that segment's content, the index `i`, and the
document-wide `Page <n>` flag — so two documents that agree on those classify
the segment identically (but, per the counterexample, not two positions). -/
theorem claim8_class_inputs (t1 t2 : List Char) (i : Nat) (b : List Char)
    (h0 : hasPageRef t1 = hasPageRef t2)
    (h1 : (pySplitMarker t1).get? i = some b)
    (h2 : (pySplitMarker t2).get? i = some b) :
    (∀ b1 b2 : List Char, b1 = b2 →
      is_supplementary_content b1 = is_supplementary_content b2) ∧
    blockClassAt t1 i = blockClassAt t2 i := by
  constructor
  · intro b1 b2 hb
    rw [hb]
  · unfold blockClassAt
    rw [h1, h2, h0]

/-- Witness for C8 (amended): two documents sharing the block at index 1. -/
theorem claim8_witness :
    blockClassAt (("first one\n--- Page 1 ---\nshared body text").data) 1 =
      blockClassAt (("other text here\n--- Page 1 ---\nshared body text").data) 1 :=
  (claim8_class_inputs
    (("first one\n--- Page 1 ---\nshared body text").data)
    (("other text here\n--- Page 1 ---\nshared body text").data)
    1 (("shared body text").data) (by decide) (by decide) (by decide)).2

/-- C10: `separate_content` partitions its input — empty/all-whitespace input
returns `("", "")`; otherwise every page-marker-delimited block that strips to
nothing is silently dropped, and each remaining block, after cleaning, lands
in exactly one of the main list and the supplementary list (the two lists are
the complementary filters of the processed blocks, and their lengths add up). -/
theorem claim10_partition (text : List Char) :
    (pyStrip text = [] → separate_content text = ([], [])) ∧
    (∀ (i : Nat) (hr : Bool) (bs : List (List Char)),
      (sepGo i hr bs).1 =
        (procGo i hr bs).filter (fun b => !(is_supplementary_content b)) ∧
      (sepGo i hr bs).2 =
        (procGo i hr bs).filter (fun b => is_supplementary_content b) ∧
      (sepGo i hr bs).1.length + (sepGo i hr bs).2.length = (procGo i hr bs).length) := by
  constructor
  · intro h
    unfold separate_content
    rw [if_pos h]
  · intro i hr bs
    rw [sepGo_eq_filter]
    refine ⟨rfl, rfl, ?_⟩
    rw [Nat.add_comm]
    exact filter_length_sum _ _

/-- Witness for C10: an all-whitespace input yields `("", "")`, and on a
concrete two-block document the two lists partition the processed blocks. -/
theorem claim10_witness :
    separate_content (("  \n \t ").data) = ([], []) ∧
    (sepGo 0 true [("Table 1\n1 2").data, ("plain prose here").data]).1.length +
      (sepGo 0 true [("Table 1\n1 2").data, ("plain prose here").data]).2.length =
      (procGo 0 true [("Table 1\n1 2").data, ("plain prose here").data]).length := by
  constructor
  · exact (claim10_partition (("  \n \t ").data)).1 (by decide)
  · exact ((claim10_partition []).2 0 true
      [("Table 1\n1 2").data, ("plain prose here").data]).2.2
